/-
Verification of the encrypted-sketch aggregation engine described by
`src/main/cc/wfa/measurement/common/crypto/protocol_encryption_utility_wrapper.h`.

The header under verification declares five wrapper functions
(`AddNoiseToSketch`, `BlindOneLayerRegisterIndex`,
`BlindLastLayerIndexThenJoinRegisters`, `DecryptOneLayerFlagAndCount`,
`DecryptLastLayerFlagAndCount`), each taking one serialized request byte
string and returning `absl::StatusOr<std::string>`.  The implementation
module (`protocol_encryption_utility`) is not part of the repository
snapshot, so the core operations below are modelled from the repository's
specification: a multi-party, multi-layer encrypted sketch aggregation
engine.  The layered ElGamal-style cipher is modelled symbolically: a
ciphertext carries its plaintext payload together with the list of
key layers currently applied to it; blinding prepends a layer to the
index field, decryption removes a layer from the flag/count fields.
-/
import Mathlib

set_option autoImplicit false

/-- A symbolic ciphertext: the underlying plaintext payload together with
the list of key layers currently applied to it.  Two ciphertexts are equal
exactly when both the payload and the layer list agree, which models
deterministic (exponentiation-style) blinding: equal plaintexts blinded
under the same key sequence collide, distinct ones do not. -/
structure Ciphertext where
  payload : Nat
  layers : List Nat
deriving DecidableEq, Repr

/-- A sketch register: an (index, flag, count) triple of ciphertexts.
The spec names the middle field "key"; its decrypted content is the
flag of the flag-and-count pair, so it is called `flag` here. -/
structure Register where
  index : Ciphertext
  flag : Ciphertext
  count : Ciphertext
deriving DecidableEq, Repr

/-- A sketch: an ordered sequence of registers plus metadata.  The
`keyContext` is the list of the participating parties' key shares (the
combined public-key context); an empty list models an absent key context.
`width` is the fixed register field width. -/
structure Sketch where
  registers : List Register
  keyContext : List Nat
  width : Nat
deriving DecidableEq, Repr

/-- Per-party key material: the expected combined key context and this
party's own key share. -/
structure KeyMaterial where
  ctx : List Nat
  share : Nat
deriving DecidableEq, Repr

/-- Noise parameters: distribution scale and register-count bound. -/
structure NoiseParameters where
  scale : Int
  bound : Int
deriving DecidableEq, Repr

/-- The error taxonomy of the spec. -/
inductive ProtocolError where
  | InvalidParameters
  | KeyMismatch
  | JoinConflict
  | DecryptionError
  | MalformedCiphertext
deriving DecidableEq, Repr

/-- A plaintext register before encryption. -/
structure PlainRegister where
  index : Nat
  flag : Nat
  count : Nat
deriving DecidableEq, Repr

/-- A fully decrypted output record: the still-opaque blinded index
together with the plaintext flag and count. -/
structure PlainRecord where
  index : Ciphertext
  flag : Nat
  count : Nat
deriving DecidableEq, Repr

/-- Decidable equality of operation results, for evaluating the model on
concrete inputs. -/
instance exceptDecEq {ε α : Type} [DecidableEq ε] [DecidableEq α] :
    DecidableEq (Except ε α) := fun x y =>
  match x, y with
  | .ok a, .ok b =>
    if h : a = b then isTrue (by rw [h]) else isFalse (fun hc => h (Except.ok.inj hc))
  | .error e, .error f =>
    if h : e = f then isTrue (by rw [h]) else isFalse (fun hc => h (Except.error.inj hc))
  | .ok _, .error _ => isFalse (fun hc => Except.noConfusion hc)
  | .error _, .ok _ => isFalse (fun hc => Except.noConfusion hc)

/-- Apply one blinding layer (partial exponentiation) to a ciphertext. -/
def blindLayer (share : Nat) (c : Ciphertext) : Ciphertext :=
  ⟨c.payload, share :: c.layers⟩

/-- Remove one decryption layer from a ciphertext; fails with
`DecryptionError` when the layer is not present. -/
def decryptLayer (share : Nat) (c : Ciphertext) : Except ProtocolError Ciphertext :=
  if share ∈ c.layers then .ok ⟨c.payload, c.layers.erase share⟩
  else .error .DecryptionError

/-- Encrypt one plaintext value under the combined key context. -/
def encryptValue (ctx : List Nat) (v : Nat) : Ciphertext := ⟨v, ctx⟩

/-- Encrypt one plaintext register under the combined key context. -/
def encryptRegister (ctx : List Nat) (p : PlainRegister) : Register :=
  ⟨encryptValue ctx p.index, encryptValue ctx p.flag, encryptValue ctx p.count⟩

/-- Encrypt a plaintext register set into a sketch. -/
def encryptSketch (ctx : List Nat) (w : Nat) (ps : List PlainRegister) : Sketch :=
  ⟨ps.map (encryptRegister ctx), ctx, w⟩

/-- The number of noise registers drawn for the given parameters and
externally supplied randomness: zero at scale zero, otherwise a draw
within the configured register-count bound. -/
def drawnNoiseCount (p : NoiseParameters) (seed : Nat) : Nat :=
  if p.scale ≤ 0 then 0 else seed % (p.bound.toNat + 1)

/-- One synthetic noise register: a fresh index, zero flag and zero count,
all encrypted under the same combined key context as genuine registers. -/
def noiseRegister (ctx : List Nat) (seed i : Nat) : Register :=
  ⟨⟨seed + i, ctx⟩, ⟨0, ctx⟩, ⟨0, ctx⟩⟩

/-- The drawn noise registers. -/
def noiseRegisters (ctx : List Nat) (seed n : Nat) : List Register :=
  (List.range n).map (noiseRegister ctx seed)

namespace ProtocolEncryptionUtility

/-- Modelled from the spec: the noise injector of the missing
`protocol_encryption_utility` implementation.  Appends the drawn noise
registers to the sketch; fails with `InvalidParameters` when the scale or
the bound is negative or the key context is absent. -/
def AddNoiseToSketch (s : Sketch) (p : NoiseParameters) (seed : Nat) :
    Except ProtocolError Sketch :=
  if p.scale < 0 ∨ p.bound < 0 ∨ s.keyContext = [] then
    .error .InvalidParameters
  else
    .ok ⟨s.registers ++ noiseRegisters s.keyContext seed (drawnNoiseCount p seed),
         s.keyContext, s.width⟩

/-- Apply one blinding layer to the index field of a register,
leaving the flag and count fields untouched. -/
def blindRegister (share : Nat) (r : Register) : Register :=
  ⟨blindLayer share r.index, r.flag, r.count⟩

/-- Modelled from the spec: the one-layer index blinder of the missing
`protocol_encryption_utility` implementation.  Re-encrypts only the index
field of every register; fails with `KeyMismatch` when the sketch's key
context does not match the supplied key material. -/
def BlindOneLayerRegisterIndex (s : Sketch) (km : KeyMaterial) :
    Except ProtocolError Sketch :=
  if s.keyContext = km.ctx then
    .ok ⟨s.registers.map (blindRegister km.share), s.keyContext, s.width⟩
  else .error .KeyMismatch

/-- The largest count value expressible at register width `w`. -/
def cap (w : Nat) : Nat := 2 ^ w - 1

/-- The join combination rule: counts combine by capped homomorphic
addition, flags by aggregation (maximum); the layer structure of the
first register of the group is kept. -/
def mergeRegister (w : Nat) (a b : Register) : Register :=
  ⟨a.index,
   ⟨max a.flag.payload b.flag.payload, a.flag.layers⟩,
   ⟨min (a.count.payload + b.count.payload) (cap w), a.count.layers⟩⟩

/-- Merge one register into the accumulated join output: combined with
the first accumulated register carrying an equal blinded index, appended
otherwise. -/
def insertMerge (w : Nat) (r : Register) : List Register → List Register
  | [] => [r]
  | s :: rest =>
    if s.index = r.index then mergeRegister w s r :: rest
    else s :: insertMerge w r rest

/-- Group registers by blinded-index equality, in order of first
occurrence, merging each group with the combination rule. -/
def joinRegisters (w : Nat) (regs : List Register) : List Register :=
  regs.foldl (fun acc r => insertMerge w r acc) []

/-- Modelled from the spec: the final-layer blind-and-join of the missing
`protocol_encryption_utility` implementation.  Applies the last blinding
layer to every register index across all input sketches, then groups
registers by blinded-index equality and merges each group.  Fails with
`KeyMismatch` on a key-context mismatch and with `JoinConflict` when the
input sketches have incompatible widths or key contexts. -/
def BlindLastLayerIndexThenJoinRegisters (sketches : List Sketch)
    (km : KeyMaterial) : Except ProtocolError Sketch :=
  match sketches with
  | [] => .error .InvalidParameters
  | s₀ :: rest =>
    if km.ctx = s₀.keyContext then
      if ∀ s ∈ s₀ :: rest, s.width = s₀.width ∧ s.keyContext = s₀.keyContext then
        .ok ⟨joinRegisters s₀.width
               (((s₀ :: rest).map
                  (fun s => s.registers.map (blindRegister km.share))).flatten),
             s₀.keyContext, s₀.width⟩
      else .error .JoinConflict
    else .error .KeyMismatch

/-- Error-propagating map over a register list. -/
def mapE {α β : Type} (f : α → Except ProtocolError β) :
    List α → Except ProtocolError (List β)
  | [] => .ok []
  | a :: as =>
    match f a with
    | .error e => .error e
    | .ok b =>
      match mapE f as with
      | .error e => .error e
      | .ok bs => .ok (b :: bs)

/-- Remove one decryption layer from the flag and count fields of a
register; the index stays opaque. -/
def decryptRegisterOne (share : Nat) (r : Register) :
    Except ProtocolError Register :=
  match decryptLayer share r.flag with
  | .error e => .error e
  | .ok f =>
    match decryptLayer share r.count with
    | .error e => .error e
    | .ok c => .ok ⟨r.index, f, c⟩

/-- Modelled from the spec: the single-layer decryptor of the missing
`protocol_encryption_utility` implementation.  Removes one decryption
layer from the flag and count fields of every register; fails with
`DecryptionError` when the layer is missing. -/
def DecryptOneLayerFlagAndCount (s : Sketch) (km : KeyMaterial) :
    Except ProtocolError Sketch :=
  match mapE (decryptRegisterOne km.share) s.registers with
  | .error e => .error e
  | .ok regs => .ok ⟨regs, s.keyContext, s.width⟩

/-- Remove the final decryption layer from one register, yielding the
plaintext flag and count; fails with `DecryptionError` unless exactly the
expected one layer remains, and with `MalformedCiphertext` when the
decoded plaintext fails the validity check. -/
def decryptRegisterLast (w : Nat) (share : Nat) (r : Register) :
    Except ProtocolError PlainRecord :=
  if r.flag.layers = [share] ∧ r.count.layers = [share] then
    if r.flag.payload ≤ 1 ∧ r.count.payload < 2 ^ w then
      .ok ⟨r.index, r.flag.payload, r.count.payload⟩
    else .error .MalformedCiphertext
  else .error .DecryptionError

/-- Modelled from the spec: the final decryptor of the missing
`protocol_encryption_utility` implementation.  Yields the plaintext
(flag, count) pair of every register. -/
def DecryptLastLayerFlagAndCount (s : Sketch) (km : KeyMaterial) :
    Except ProtocolError (List PlainRecord) :=
  mapE (decryptRegisterLast s.width km.share) s.registers

/-- Apply the one-layer index blinder once per listed party share. -/
def blindAll (ctx : List Nat) (ks : List Nat) (s : Sketch) :
    Except ProtocolError Sketch :=
  match ks with
  | [] => .ok s
  | k :: rest =>
    match BlindOneLayerRegisterIndex s ⟨ctx, k⟩ with
    | .error e => .error e
    | .ok s' => blindAll ctx rest s'

/-- Apply the single-layer decryptor once per listed party share. -/
def decryptAll (ctx : List Nat) (ks : List Nat) (s : Sketch) :
    Except ProtocolError Sketch :=
  match ks with
  | [] => .ok s
  | k :: rest =>
    match DecryptOneLayerFlagAndCount s ⟨ctx, k⟩ with
    | .error e => .error e
    | .ok s' => decryptAll ctx rest s'

/-- Error-propagating sequential composition of pipeline stages. -/
def bindE {α β : Type} (x : Except ProtocolError α)
    (f : α → Except ProtocolError β) : Except ProtocolError β :=
  match x with
  | .error e => .error e
  | .ok a => f a

/-- One party's share of the pipeline: encrypt the plaintext register
set, add noise, then apply every blinding layer but the last. -/
def prepSketch (ctx blindKeys : List Nat) (w : Nat) (p : NoiseParameters)
    (seed : Nat) (ps : List PlainRegister) : Except ProtocolError Sketch :=
  bindE (AddNoiseToSketch (encryptSketch ctx w ps) p seed)
    (fun s1 => blindAll ctx blindKeys s1)

/-- The full multi-party pipeline on a list of plaintext register sets,
one per contributing party: encrypt each set, add noise to each sketch,
apply all-but-the-last blinding layer to each, blind the last layer and
join, then remove every decryption layer and decode the plaintext. -/
def runPipelineMulti (blindKeys : List Nat) (lastKey w : Nat)
    (plains : List (List PlainRegister)) (p : NoiseParameters) (seed : Nat) :
    Except ProtocolError (List PlainRecord) :=
  bindE (mapE (prepSketch (blindKeys ++ [lastKey]) blindKeys w p seed) plains)
    (fun sketches =>
      bindE (BlindLastLayerIndexThenJoinRegisters sketches
          ⟨blindKeys ++ [lastKey], lastKey⟩)
        (fun s3 =>
          bindE (decryptAll (blindKeys ++ [lastKey]) blindKeys s3)
            (fun s4 => DecryptLastLayerFlagAndCount s4
              ⟨blindKeys ++ [lastKey], lastKey⟩)))

/-- The full pipeline on a single plaintext register set. -/
def runPipeline (blindKeys : List Nat) (lastKey w : Nat)
    (plain : List PlainRegister) (p : NoiseParameters) (seed : Nat) :
    Except ProtocolError (List PlainRecord) :=
  runPipelineMulti blindKeys lastKey w [plain] p seed

end ProtocolEncryptionUtility

/-- Serialize a ciphertext into the byte-string model (a list of
naturals): payload, layer count, then the layers. -/
def encodeCiphertext (c : Ciphertext) : List Nat :=
  c.payload :: c.layers.length :: c.layers

/-- Serialize a register. -/
def encodeRegister (r : Register) : List Nat :=
  encodeCiphertext r.index ++ encodeCiphertext r.flag ++ encodeCiphertext r.count

/-- Serialize a sketch. -/
def encodeSketch (s : Sketch) : List Nat :=
  s.registers.length :: (s.registers.map encodeRegister).flatten
    ++ s.keyContext.length :: s.keyContext ++ [s.width]

/-- Serialize a signed integer: a sign symbol followed by the magnitude. -/
def encodeInt (i : Int) : List Nat :=
  match i with
  | .ofNat n => [0, n]
  | .negSucc n => [1, n]

/-- Serialize a fully decrypted output record. -/
def encodePlainRecord (rec : PlainRecord) : List Nat :=
  encodeCiphertext rec.index ++ [rec.flag, rec.count]

/-- Serialize the final plaintext response. -/
def encodePlainRecords (recs : List PlainRecord) : List Nat :=
  recs.length :: (recs.map encodePlainRecord).flatten

/-- Parse a ciphertext, returning the remaining bytes. -/
def decodeCiphertext : List Nat → Option (Ciphertext × List Nat)
  | p :: n :: rest =>
    if n ≤ rest.length then some (⟨p, rest.take n⟩, rest.drop n) else none
  | _ => none

/-- Parse a register. -/
def decodeRegister (bs : List Nat) : Option (Register × List Nat) :=
  match decodeCiphertext bs with
  | none => none
  | some (i, bs₁) =>
    match decodeCiphertext bs₁ with
    | none => none
    | some (f, bs₂) =>
      match decodeCiphertext bs₂ with
      | none => none
      | some (c, bs₃) => some (⟨i, f, c⟩, bs₃)

/-- Parse a counted sequence of registers. -/
def decodeRegisters : Nat → List Nat → Option (List Register × List Nat)
  | 0, bs => some ([], bs)
  | n + 1, bs =>
    match decodeRegister bs with
    | none => none
    | some (r, bs') =>
      match decodeRegisters n bs' with
      | none => none
      | some (rs, bs'') => some (r :: rs, bs'')

/-- Parse a length-prefixed list of naturals. -/
def decodeNatList : List Nat → Option (List Nat × List Nat)
  | n :: rest =>
    if n ≤ rest.length then some (rest.take n, rest.drop n) else none
  | [] => none

/-- Parse a sketch. -/
def decodeSketch (bs : List Nat) : Option (Sketch × List Nat) :=
  match bs with
  | n :: rest =>
    match decodeRegisters n rest with
    | none => none
    | some (rs, bs₁) =>
      match decodeNatList bs₁ with
      | none => none
      | some (ctx, bs₂) =>
        match bs₂ with
        | w :: bs₃ => some (⟨rs, ctx, w⟩, bs₃)
        | [] => none
  | [] => none

/-- Parse a counted sequence of sketches. -/
def decodeSketches : Nat → List Nat → Option (List Sketch × List Nat)
  | 0, bs => some ([], bs)
  | n + 1, bs =>
    match decodeSketch bs with
    | none => none
    | some (s, bs') =>
      match decodeSketches n bs' with
      | none => none
      | some (ss, bs'') => some (s :: ss, bs'')

/-- Parse a signed integer. -/
def decodeInt : List Nat → Option (Int × List Nat)
  | 0 :: n :: rest => some (Int.ofNat n, rest)
  | 1 :: n :: rest => some (Int.negSucc n, rest)
  | _ => none

/-- Parse key material. -/
def decodeKeyMaterial (bs : List Nat) : Option (KeyMaterial × List Nat) :=
  match decodeNatList bs with
  | none => none
  | some (ctx, bs₁) =>
    match bs₁ with
    | share :: bs₂ => some (⟨ctx, share⟩, bs₂)
    | [] => none

/-- Parse an `AddNoiseToSketch` request: sketch, parameters and the
externally supplied randomness. -/
def decodeAddNoiseRequest (bs : List Nat) :
    Option ((Sketch × NoiseParameters × Nat) × List Nat) :=
  match decodeSketch bs with
  | none => none
  | some (s, bs₁) =>
    match decodeInt bs₁ with
    | none => none
    | some (scale, bs₂) =>
      match decodeInt bs₂ with
      | none => none
      | some (bound, bs₃) =>
        match bs₃ with
        | seed :: bs₄ => some ((s, ⟨scale, bound⟩, seed), bs₄)
        | [] => none

/-- Parse a request carrying a sketch and key material. -/
def decodeSketchKeyRequest (bs : List Nat) :
    Option ((Sketch × KeyMaterial) × List Nat) :=
  match decodeSketch bs with
  | none => none
  | some (s, bs₁) =>
    match decodeKeyMaterial bs₁ with
    | none => none
    | some (km, bs₂) => some ((s, km), bs₂)

/-- Parse a join request carrying several sketches and key material. -/
def decodeJoinRequest (bs : List Nat) :
    Option ((List Sketch × KeyMaterial) × List Nat) :=
  match bs with
  | n :: rest =>
    match decodeSketches n rest with
    | none => none
    | some (ss, bs₁) =>
      match decodeKeyMaterial bs₁ with
      | none => none
      | some (km, bs₂) => some ((ss, km), bs₂)
  | [] => none

namespace Crypto

/-- Modelled from the spec and the header comment: a wrapper parses the
serialized request, forwards to the core operation, and re-serializes
the response; a parse failure is reported in-band as a typed error. -/
def runSerialized {α β : Type} (dec : List Nat → Option (α × List Nat))
    (core : α → Except ProtocolError β) (enc : β → List Nat)
    (serialized_request : List Nat) : Except ProtocolError (List Nat) :=
  match dec serialized_request with
  | none => .error .InvalidParameters
  | some (a, _) =>
    match core a with
    | .error e => .error e
    | .ok b => .ok (enc b)

/-- The serialized-request wrapper of `AddNoiseToSketch` declared in
`protocol_encryption_utility_wrapper.h`. -/
def AddNoiseToSketch (serialized_request : List Nat) :
    Except ProtocolError (List Nat) :=
  runSerialized decodeAddNoiseRequest
    (fun q => ProtocolEncryptionUtility.AddNoiseToSketch q.1 q.2.1 q.2.2)
    encodeSketch serialized_request

/-- The serialized-request wrapper of `BlindOneLayerRegisterIndex`
declared in `protocol_encryption_utility_wrapper.h`. -/
def BlindOneLayerRegisterIndex (serialized_request : List Nat) :
    Except ProtocolError (List Nat) :=
  runSerialized decodeSketchKeyRequest
    (fun q => ProtocolEncryptionUtility.BlindOneLayerRegisterIndex q.1 q.2)
    encodeSketch serialized_request

/-- The serialized-request wrapper of `BlindLastLayerIndexThenJoinRegisters`
declared in `protocol_encryption_utility_wrapper.h`. -/
def BlindLastLayerIndexThenJoinRegisters (serialized_request : List Nat) :
    Except ProtocolError (List Nat) :=
  runSerialized decodeJoinRequest
    (fun q => ProtocolEncryptionUtility.BlindLastLayerIndexThenJoinRegisters q.1 q.2)
    encodeSketch serialized_request

/-- The serialized-request wrapper of `DecryptOneLayerFlagAndCount`
declared in `protocol_encryption_utility_wrapper.h`. -/
def DecryptOneLayerFlagAndCount (serialized_request : List Nat) :
    Except ProtocolError (List Nat) :=
  runSerialized decodeSketchKeyRequest
    (fun q => ProtocolEncryptionUtility.DecryptOneLayerFlagAndCount q.1 q.2)
    encodeSketch serialized_request

/-- The serialized-request wrapper of `DecryptLastLayerFlagAndCount`
declared in `protocol_encryption_utility_wrapper.h`. -/
def DecryptLastLayerFlagAndCount (serialized_request : List Nat) :
    Except ProtocolError (List Nat) :=
  runSerialized decodeSketchKeyRequest
    (fun q => ProtocolEncryptionUtility.DecryptLastLayerFlagAndCount q.1 q.2)
    encodePlainRecords serialized_request

end Crypto

/-- Every operation result is exactly one of a success value or a typed
error: the two outcomes are exhaustive and mutually exclusive. -/
theorem exceptOutcome {α : Type} (x : Except ProtocolError α) :
    ((∃ r, x = Except.ok r) ∨ (∃ e, x = Except.error e)) ∧
      ∀ r e, x = Except.ok r → x = Except.error e → False := by
  constructor
  · cases x with
    | ok r => exact Or.inl ⟨r, rfl⟩
    | error e => exact Or.inr ⟨e, rfl⟩
  · intro r e h1 h2
    rw [h1] at h2
    exact Except.noConfusion h2

/-- A successful error-propagating map succeeds pointwise: any pointwise
consequence of success transfers to the mapped lists. -/
theorem mapE_ok_map {α β γ : Type} (f : α → Except ProtocolError β)
    (g₁ : α → γ) (g₂ : β → γ) (hpt : ∀ a b, f a = .ok b → g₂ b = g₁ a) :
    ∀ (l : List α) (l' : List β),
      ProtocolEncryptionUtility.mapE f l = .ok l' → l'.map g₂ = l.map g₁ := by
  intro l
  induction l with
  | nil =>
    intro l' h
    simp only [ProtocolEncryptionUtility.mapE] at h
    cases h
    rfl
  | cons a as ih =>
    intro l' h
    simp only [ProtocolEncryptionUtility.mapE] at h
    cases hfa : f a with
    | error e => rw [hfa] at h; exact Except.noConfusion h
    | ok b =>
      rw [hfa] at h
      cases hrest : ProtocolEncryptionUtility.mapE f as with
      | error e => rw [hrest] at h; exact Except.noConfusion h
      | ok bs =>
        rw [hrest] at h
        cases h
        simp only [List.map]
        rw [hpt a b hfa, ih bs hrest]

/-- A successful one-layer register decryption removes exactly one layer
from the flag field and one from the count field. -/
theorem decryptRegisterOne_shrinks (share : Nat) (r r' : Register)
    (h : ProtocolEncryptionUtility.decryptRegisterOne share r = .ok r') :
    r'.flag.layers.length + 1 = r.flag.layers.length ∧
      r'.count.layers.length + 1 = r.count.layers.length := by
  unfold ProtocolEncryptionUtility.decryptRegisterOne decryptLayer at h
  by_cases h1 : share ∈ r.flag.layers
  · rw [if_pos h1] at h
    by_cases h2 : share ∈ r.count.layers
    · rw [if_pos h2] at h
      cases h
      constructor
      · rw [List.length_erase_of_mem h1]
        exact Nat.sub_add_cancel (List.length_pos_of_mem h1)
      · rw [List.length_erase_of_mem h2]
        exact Nat.sub_add_cancel (List.length_pos_of_mem h2)
    · rw [if_neg h2] at h
      exact Except.noConfusion h
  · rw [if_neg h1] at h
    exact Except.noConfusion h

/-- The plaintext output of the two-party end-to-end scenario. -/
def scenarioOutput : List PlainRecord :=
  [⟨⟨1, [11, 7, 7, 11]⟩, 1, 10⟩, ⟨⟨2, [11, 7, 7, 11]⟩, 1, 20⟩,
   ⟨⟨3, [11, 7, 7, 11]⟩, 1, 30⟩, ⟨⟨4, [11, 7, 7, 11]⟩, 1, 40⟩,
   ⟨⟨5, [11, 7, 7, 11]⟩, 1, 50⟩, ⟨⟨6, [11, 7, 7, 11]⟩, 1, 60⟩]

/-- C2: in the concrete scenario of 2 parties each contributing a sketch
of 3 registers with pairwise disjoint pre-blinding indices and noise
scale zero, the full pipeline yields a plaintext output of exactly 6
registers whose final counts equal the input counts (no false joins). -/
theorem two_party_disjoint_scenario :
    ProtocolEncryptionUtility.runPipelineMulti [7] 11 8
        [[⟨1, 1, 10⟩, ⟨2, 1, 20⟩, ⟨3, 1, 30⟩],
         [⟨4, 1, 40⟩, ⟨5, 1, 50⟩, ⟨6, 1, 60⟩]] ⟨0, 5⟩ 3 =
      Except.ok scenarioOutput ∧
    scenarioOutput.length = 6 ∧
    scenarioOutput.map PlainRecord.count = [10, 20, 30, 40, 50, 60] :=
  ⟨rfl, rfl, rfl⟩

/-- C3: decrypting a sketch that is missing one required decryption layer
(no register carries the decrypting party's layer) fails with
`DecryptionError` for both the single-layer and the final decryptor; in
particular neither returns a successful response carrying wrong
plaintext. -/
theorem decrypt_missing_layer_fails (s : Sketch) (km : KeyMaterial)
    (hne : s.registers ≠ [])
    (hmiss : ∀ r ∈ s.registers, km.share ∉ r.flag.layers) :
    ProtocolEncryptionUtility.DecryptOneLayerFlagAndCount s km =
        .error .DecryptionError ∧
      ProtocolEncryptionUtility.DecryptLastLayerFlagAndCount s km =
        .error .DecryptionError := by
  cases hs : s.registers with
  | nil => exact absurd hs hne
  | cons r rest =>
    have hr : km.share ∉ r.flag.layers :=
      hmiss r (hs ▸ List.mem_cons_self r rest)
    constructor
    · unfold ProtocolEncryptionUtility.DecryptOneLayerFlagAndCount
      rw [hs]
      simp [ProtocolEncryptionUtility.mapE,
        ProtocolEncryptionUtility.decryptRegisterOne, decryptLayer, hr]
    · unfold ProtocolEncryptionUtility.DecryptLastLayerFlagAndCount
      rw [hs]
      have hne' : r.flag.layers ≠ [km.share] := by
        intro hEq
        exact hr (hEq ▸ List.mem_singleton_self km.share)
      simp [ProtocolEncryptionUtility.mapE,
        ProtocolEncryptionUtility.decryptRegisterLast, hne']

/-- Witness for C3 at a concrete sketch missing the decrypting layer. -/
theorem decrypt_missing_layer_fails_witness :
    ((⟨[⟨⟨5, [1, 2]⟩, ⟨1, [1, 2]⟩, ⟨3, [1, 2]⟩⟩], [1, 2], 4⟩ : Sketch).registers ≠ [] ∧
      ∀ r ∈ (⟨[⟨⟨5, [1, 2]⟩, ⟨1, [1, 2]⟩, ⟨3, [1, 2]⟩⟩], [1, 2], 4⟩ : Sketch).registers,
        (⟨[1, 2], 9⟩ : KeyMaterial).share ∉ r.flag.layers) ∧
    ProtocolEncryptionUtility.DecryptOneLayerFlagAndCount
        ⟨[⟨⟨5, [1, 2]⟩, ⟨1, [1, 2]⟩, ⟨3, [1, 2]⟩⟩], [1, 2], 4⟩ ⟨[1, 2], 9⟩ =
      .error .DecryptionError ∧
    ProtocolEncryptionUtility.DecryptLastLayerFlagAndCount
        ⟨[⟨⟨5, [1, 2]⟩, ⟨1, [1, 2]⟩, ⟨3, [1, 2]⟩⟩], [1, 2], 4⟩ ⟨[1, 2], 9⟩ =
      .error .DecryptionError :=
  ⟨⟨by decide, by decide⟩,
   decrypt_missing_layer_fails _ _ (by decide) (by decide)⟩

/-- C4 counterexample: a call with non-negative scale but an absent key
context fails, so `AddNoiseToSketch` does not succeed for every sketch
and every non-negative-scale parameter choice. -/
theorem addNoise_rejects_absent_key_context :
    ProtocolEncryptionUtility.AddNoiseToSketch ⟨[], [], 4⟩ ⟨0, 0⟩ 0 =
      .error .InvalidParameters := rfl

/-- C4 as amended: when additionally the key context is present and the
bound is non-negative, `AddNoiseToSketch` succeeds, the output length is
the input length plus the drawn noise count, and the original registers
form an unmodified order-preserving prefix (hence subsequence). -/
theorem addNoise_appends_noise (s : Sketch) (p : NoiseParameters) (seed : Nat)
    (hctx : s.keyContext ≠ []) (hscale : 0 ≤ p.scale) (hbound : 0 ≤ p.bound) :
    ∃ s', ProtocolEncryptionUtility.AddNoiseToSketch s p seed = .ok s' ∧
      s'.registers.length = s.registers.length + drawnNoiseCount p seed ∧
      s'.registers.take s.registers.length = s.registers ∧
      List.Sublist s.registers s'.registers := by
  refine ⟨⟨s.registers ++ noiseRegisters s.keyContext seed (drawnNoiseCount p seed),
           s.keyContext, s.width⟩, ?_, ?_, ?_, ?_⟩
  · unfold ProtocolEncryptionUtility.AddNoiseToSketch
    rw [if_neg]
    push_neg
    exact ⟨hscale, hbound, hctx⟩
  · simp [noiseRegisters]
  · exact List.take_left s.registers _
  · exact List.sublist_append_left s.registers _

/-- Witness for C4's amended theorem at a concrete input. -/
theorem addNoise_appends_noise_witness :
    ((⟨[⟨⟨5, [4]⟩, ⟨1, [4]⟩, ⟨3, [4]⟩⟩], [4], 4⟩ : Sketch).keyContext ≠ [] ∧
      (0 : Int) ≤ (⟨1, 2⟩ : NoiseParameters).scale ∧
      (0 : Int) ≤ (⟨1, 2⟩ : NoiseParameters).bound) ∧
    ∃ s', ProtocolEncryptionUtility.AddNoiseToSketch
        ⟨[⟨⟨5, [4]⟩, ⟨1, [4]⟩, ⟨3, [4]⟩⟩], [4], 4⟩ ⟨1, 2⟩ 5 = .ok s' ∧
      s'.registers.length =
        (⟨[⟨⟨5, [4]⟩, ⟨1, [4]⟩, ⟨3, [4]⟩⟩], [4], 4⟩ : Sketch).registers.length +
          drawnNoiseCount ⟨1, 2⟩ 5 ∧
      s'.registers.take
          (⟨[⟨⟨5, [4]⟩, ⟨1, [4]⟩, ⟨3, [4]⟩⟩], [4], 4⟩ : Sketch).registers.length =
        (⟨[⟨⟨5, [4]⟩, ⟨1, [4]⟩, ⟨3, [4]⟩⟩], [4], 4⟩ : Sketch).registers ∧
      List.Sublist (⟨[⟨⟨5, [4]⟩, ⟨1, [4]⟩, ⟨3, [4]⟩⟩], [4], 4⟩ : Sketch).registers
        s'.registers :=
  ⟨⟨by decide, by decide, by decide⟩,
   addNoise_appends_noise _ _ 5 (by decide) (by decide) (by decide)⟩

/-- C5: a successful `BlindOneLayerRegisterIndex` preserves the number
and order of registers, leaves every register's flag and count fields
unchanged, and re-encrypts exactly the index field by one added blinding
layer; the sketch metadata is also unchanged. -/
theorem blindOneLayer_touches_only_index (s : Sketch) (km : KeyMaterial)
    (s' : Sketch)
    (h : ProtocolEncryptionUtility.BlindOneLayerRegisterIndex s km = .ok s') :
    s'.registers.length = s.registers.length ∧
    (∀ i (h1 : i < s.registers.length) (h2 : i < s'.registers.length),
      (s'.registers.get ⟨i, h2⟩).flag = (s.registers.get ⟨i, h1⟩).flag ∧
      (s'.registers.get ⟨i, h2⟩).count = (s.registers.get ⟨i, h1⟩).count ∧
      (s'.registers.get ⟨i, h2⟩).index =
        blindLayer km.share (s.registers.get ⟨i, h1⟩).index) ∧
    s'.keyContext = s.keyContext ∧ s'.width = s.width := by
  unfold ProtocolEncryptionUtility.BlindOneLayerRegisterIndex at h
  split at h
  · cases h
    refine ⟨by simp, ?_, rfl, rfl⟩
    intro i h1 h2
    simp [List.get_eq_getElem, List.getElem_map,
      ProtocolEncryptionUtility.blindRegister]
  · exact Except.noConfusion h

/-- Witness for C5 at a concrete sketch and key material. -/
theorem blindOneLayer_touches_only_index_witness :
    ProtocolEncryptionUtility.BlindOneLayerRegisterIndex
        ⟨[⟨⟨5, [1, 2]⟩, ⟨1, [1, 2]⟩, ⟨3, [1, 2]⟩⟩], [1, 2], 4⟩ ⟨[1, 2], 1⟩ =
      .ok ⟨[⟨⟨5, [1, 1, 2]⟩, ⟨1, [1, 2]⟩, ⟨3, [1, 2]⟩⟩], [1, 2], 4⟩ ∧
    ((⟨[⟨⟨5, [1, 1, 2]⟩, ⟨1, [1, 2]⟩, ⟨3, [1, 2]⟩⟩], [1, 2], 4⟩ : Sketch).registers.length =
        (⟨[⟨⟨5, [1, 2]⟩, ⟨1, [1, 2]⟩, ⟨3, [1, 2]⟩⟩], [1, 2], 4⟩ : Sketch).registers.length ∧
      (∀ i (h1 : i < (⟨[⟨⟨5, [1, 2]⟩, ⟨1, [1, 2]⟩, ⟨3, [1, 2]⟩⟩], [1, 2], 4⟩ : Sketch).registers.length)
          (h2 : i < (⟨[⟨⟨5, [1, 1, 2]⟩, ⟨1, [1, 2]⟩, ⟨3, [1, 2]⟩⟩], [1, 2], 4⟩ : Sketch).registers.length),
        ((⟨[⟨⟨5, [1, 1, 2]⟩, ⟨1, [1, 2]⟩, ⟨3, [1, 2]⟩⟩], [1, 2], 4⟩ : Sketch).registers.get ⟨i, h2⟩).flag =
          ((⟨[⟨⟨5, [1, 2]⟩, ⟨1, [1, 2]⟩, ⟨3, [1, 2]⟩⟩], [1, 2], 4⟩ : Sketch).registers.get ⟨i, h1⟩).flag ∧
        ((⟨[⟨⟨5, [1, 1, 2]⟩, ⟨1, [1, 2]⟩, ⟨3, [1, 2]⟩⟩], [1, 2], 4⟩ : Sketch).registers.get ⟨i, h2⟩).count =
          ((⟨[⟨⟨5, [1, 2]⟩, ⟨1, [1, 2]⟩, ⟨3, [1, 2]⟩⟩], [1, 2], 4⟩ : Sketch).registers.get ⟨i, h1⟩).count ∧
        ((⟨[⟨⟨5, [1, 1, 2]⟩, ⟨1, [1, 2]⟩, ⟨3, [1, 2]⟩⟩], [1, 2], 4⟩ : Sketch).registers.get ⟨i, h2⟩).index =
          blindLayer (⟨[1, 2], 1⟩ : KeyMaterial).share
            ((⟨[⟨⟨5, [1, 2]⟩, ⟨1, [1, 2]⟩, ⟨3, [1, 2]⟩⟩], [1, 2], 4⟩ : Sketch).registers.get ⟨i, h1⟩).index) ∧
      (⟨[⟨⟨5, [1, 1, 2]⟩, ⟨1, [1, 2]⟩, ⟨3, [1, 2]⟩⟩], [1, 2], 4⟩ : Sketch).keyContext =
        (⟨[⟨⟨5, [1, 2]⟩, ⟨1, [1, 2]⟩, ⟨3, [1, 2]⟩⟩], [1, 2], 4⟩ : Sketch).keyContext ∧
      (⟨[⟨⟨5, [1, 1, 2]⟩, ⟨1, [1, 2]⟩, ⟨3, [1, 2]⟩⟩], [1, 2], 4⟩ : Sketch).width =
        (⟨[⟨⟨5, [1, 2]⟩, ⟨1, [1, 2]⟩, ⟨3, [1, 2]⟩⟩], [1, 2], 4⟩ : Sketch).width) :=
  ⟨by decide, blindOneLayer_touches_only_index _ _ _ (by decide)⟩

/-- C6: each of the five operations is a pure deterministic transform of
its full input (the externally supplied randomness for the noise draw is
part of the noise request): two invocations with the same input produce
the same result. -/
theorem operations_deterministic (s s₁ s₂ s₃ : Sketch) (p : NoiseParameters)
    (seed : Nat) (km₁ km₂ km₃ km₄ : KeyMaterial) (sketches : List Sketch) :
    ProtocolEncryptionUtility.AddNoiseToSketch s p seed =
        ProtocolEncryptionUtility.AddNoiseToSketch s p seed ∧
      ProtocolEncryptionUtility.BlindOneLayerRegisterIndex s₁ km₁ =
        ProtocolEncryptionUtility.BlindOneLayerRegisterIndex s₁ km₁ ∧
      ProtocolEncryptionUtility.BlindLastLayerIndexThenJoinRegisters sketches km₂ =
        ProtocolEncryptionUtility.BlindLastLayerIndexThenJoinRegisters sketches km₂ ∧
      ProtocolEncryptionUtility.DecryptOneLayerFlagAndCount s₂ km₃ =
        ProtocolEncryptionUtility.DecryptOneLayerFlagAndCount s₂ km₃ ∧
      ProtocolEncryptionUtility.DecryptLastLayerFlagAndCount s₃ km₄ =
        ProtocolEncryptionUtility.DecryptLastLayerFlagAndCount s₃ km₄ :=
  ⟨rfl, rfl, rfl, rfl, rfl⟩

/-- C7: every call to one of the five operations yields exactly one of a
complete success value or a typed error; the operations are functions of
their request alone (no state), so a failure leaves nothing changed. -/
theorem operations_total_no_partial (s s₁ s₂ s₃ : Sketch) (p : NoiseParameters)
    (seed : Nat) (km₁ km₂ km₃ km₄ : KeyMaterial) (sketches : List Sketch) :
    (((∃ r, ProtocolEncryptionUtility.AddNoiseToSketch s p seed = Except.ok r) ∨
        (∃ e, ProtocolEncryptionUtility.AddNoiseToSketch s p seed = Except.error e)) ∧
      ∀ r e, ProtocolEncryptionUtility.AddNoiseToSketch s p seed = Except.ok r →
        ProtocolEncryptionUtility.AddNoiseToSketch s p seed = Except.error e → False) ∧
    (((∃ r, ProtocolEncryptionUtility.BlindOneLayerRegisterIndex s₁ km₁ = Except.ok r) ∨
        (∃ e, ProtocolEncryptionUtility.BlindOneLayerRegisterIndex s₁ km₁ = Except.error e)) ∧
      ∀ r e, ProtocolEncryptionUtility.BlindOneLayerRegisterIndex s₁ km₁ = Except.ok r →
        ProtocolEncryptionUtility.BlindOneLayerRegisterIndex s₁ km₁ = Except.error e → False) ∧
    (((∃ r, ProtocolEncryptionUtility.BlindLastLayerIndexThenJoinRegisters sketches km₂ = Except.ok r) ∨
        (∃ e, ProtocolEncryptionUtility.BlindLastLayerIndexThenJoinRegisters sketches km₂ = Except.error e)) ∧
      ∀ r e, ProtocolEncryptionUtility.BlindLastLayerIndexThenJoinRegisters sketches km₂ = Except.ok r →
        ProtocolEncryptionUtility.BlindLastLayerIndexThenJoinRegisters sketches km₂ = Except.error e → False) ∧
    (((∃ r, ProtocolEncryptionUtility.DecryptOneLayerFlagAndCount s₂ km₃ = Except.ok r) ∨
        (∃ e, ProtocolEncryptionUtility.DecryptOneLayerFlagAndCount s₂ km₃ = Except.error e)) ∧
      ∀ r e, ProtocolEncryptionUtility.DecryptOneLayerFlagAndCount s₂ km₃ = Except.ok r →
        ProtocolEncryptionUtility.DecryptOneLayerFlagAndCount s₂ km₃ = Except.error e → False) ∧
    (((∃ r, ProtocolEncryptionUtility.DecryptLastLayerFlagAndCount s₃ km₄ = Except.ok r) ∨
        (∃ e, ProtocolEncryptionUtility.DecryptLastLayerFlagAndCount s₃ km₄ = Except.error e)) ∧
      ∀ r e, ProtocolEncryptionUtility.DecryptLastLayerFlagAndCount s₃ km₄ = Except.ok r →
        ProtocolEncryptionUtility.DecryptLastLayerFlagAndCount s₃ km₄ = Except.error e → False) :=
  ⟨exceptOutcome _, exceptOutcome _, exceptOutcome _, exceptOutcome _,
   exceptOutcome _⟩

/-- C8 counterexample: a call with noise scale exactly zero, a positive
bound and a present key context succeeds, so `AddNoiseToSketch` does not
fail with `InvalidParameters` whenever the scale is non-positive. -/
theorem addNoise_zero_scale_succeeds :
    ProtocolEncryptionUtility.AddNoiseToSketch ⟨[], [5], 4⟩ ⟨0, 5⟩ 3 =
        .ok ⟨[], [5], 4⟩ ∧
      ProtocolEncryptionUtility.AddNoiseToSketch ⟨[], [5], 4⟩ ⟨0, 5⟩ 3 ≠
        .error .InvalidParameters := by
  constructor
  · rfl
  · decide

/-- C8 as amended: `AddNoiseToSketch` fails with `InvalidParameters`
exactly when the scale is negative, the bound is negative, or the key
context is absent; in particular a call with scale zero and valid bound
and context succeeds. -/
theorem addNoise_invalidParameters_iff (s : Sketch) (p : NoiseParameters)
    (seed : Nat) :
    ProtocolEncryptionUtility.AddNoiseToSketch s p seed =
        .error .InvalidParameters ↔
      (p.scale < 0 ∨ p.bound < 0 ∨ s.keyContext = []) := by
  unfold ProtocolEncryptionUtility.AddNoiseToSketch
  split
  case isTrue h => simpa using h
  case isFalse h => simpa using h

/-- C9 counterexample: the operations do not enforce the protocol stage
order: the single-layer decryptor accepts and successfully processes a
raw, freshly encrypted sketch that has received no noise, no blinding
layer and no join. -/
theorem decryptOne_accepts_raw_sketch :
    ProtocolEncryptionUtility.DecryptOneLayerFlagAndCount
        (encryptSketch [1, 2] 4 [⟨5, 1, 3⟩]) ⟨[1, 2], 1⟩ =
      .ok ⟨[⟨⟨5, [1, 2]⟩, ⟨1, [2]⟩, ⟨3, [2]⟩⟩], [1, 2], 4⟩ := rfl

/-- C9 as amended: stage ordering is a protocol discipline rather than an
operation-enforced check, but every successful operation strictly
advances the pipeline: one blinding adds exactly one index layer to every
register, and one decryption removes exactly one flag layer and one count
layer from every register, so no single operation returns a sketch to an
earlier layer state. -/
theorem operations_layer_progress (s₁ s₂ : Sketch) (km₁ km₂ : KeyMaterial)
    (t₁ t₂ : Sketch)
    (h₁ : ProtocolEncryptionUtility.BlindOneLayerRegisterIndex s₁ km₁ = .ok t₁)
    (h₂ : ProtocolEncryptionUtility.DecryptOneLayerFlagAndCount s₂ km₂ = .ok t₂) :
    t₁.registers.map (fun r => r.index.layers.length) =
        s₁.registers.map (fun r => r.index.layers.length + 1) ∧
      t₂.registers.map (fun r => r.flag.layers.length + 1) =
        s₂.registers.map (fun r => r.flag.layers.length) ∧
      t₂.registers.map (fun r => r.count.layers.length + 1) =
        s₂.registers.map (fun r => r.count.layers.length) := by
  refine ⟨?_, ?_, ?_⟩
  · unfold ProtocolEncryptionUtility.BlindOneLayerRegisterIndex at h₁
    split at h₁
    · cases h₁
      simp [List.map_map, Function.comp,
        ProtocolEncryptionUtility.blindRegister, blindLayer]
    · exact Except.noConfusion h₁
  · unfold ProtocolEncryptionUtility.DecryptOneLayerFlagAndCount at h₂
    cases hm : ProtocolEncryptionUtility.mapE
        (ProtocolEncryptionUtility.decryptRegisterOne km₂.share) s₂.registers with
    | error e => rw [hm] at h₂; exact Except.noConfusion h₂
    | ok regs =>
      rw [hm] at h₂
      cases h₂
      exact mapE_ok_map _ _ _
        (fun a b hab => (decryptRegisterOne_shrinks km₂.share a b hab).1)
        s₂.registers regs hm
  · unfold ProtocolEncryptionUtility.DecryptOneLayerFlagAndCount at h₂
    cases hm : ProtocolEncryptionUtility.mapE
        (ProtocolEncryptionUtility.decryptRegisterOne km₂.share) s₂.registers with
    | error e => rw [hm] at h₂; exact Except.noConfusion h₂
    | ok regs =>
      rw [hm] at h₂
      cases h₂
      exact mapE_ok_map _ _ _
        (fun a b hab => (decryptRegisterOne_shrinks km₂.share a b hab).2)
        s₂.registers regs hm

/-- Witness for C9's amended theorem at concrete successful calls. -/
theorem operations_layer_progress_witness :
    ProtocolEncryptionUtility.BlindOneLayerRegisterIndex
        ⟨[⟨⟨5, [1, 2]⟩, ⟨1, [1, 2]⟩, ⟨3, [1, 2]⟩⟩], [1, 2], 4⟩ ⟨[1, 2], 1⟩ =
      .ok ⟨[⟨⟨5, [1, 1, 2]⟩, ⟨1, [1, 2]⟩, ⟨3, [1, 2]⟩⟩], [1, 2], 4⟩ ∧
    ProtocolEncryptionUtility.DecryptOneLayerFlagAndCount
        ⟨[⟨⟨5, [1, 2]⟩, ⟨1, [1, 2]⟩, ⟨3, [1, 2]⟩⟩], [1, 2], 4⟩ ⟨[1, 2], 2⟩ =
      .ok ⟨[⟨⟨5, [1, 2]⟩, ⟨1, [1]⟩, ⟨3, [1]⟩⟩], [1, 2], 4⟩ ∧
    ((⟨[⟨⟨5, [1, 1, 2]⟩, ⟨1, [1, 2]⟩, ⟨3, [1, 2]⟩⟩], [1, 2], 4⟩ : Sketch).registers.map
          (fun r => r.index.layers.length) =
        (⟨[⟨⟨5, [1, 2]⟩, ⟨1, [1, 2]⟩, ⟨3, [1, 2]⟩⟩], [1, 2], 4⟩ : Sketch).registers.map
          (fun r => r.index.layers.length + 1) ∧
      (⟨[⟨⟨5, [1, 2]⟩, ⟨1, [1]⟩, ⟨3, [1]⟩⟩], [1, 2], 4⟩ : Sketch).registers.map
          (fun r => r.flag.layers.length + 1) =
        (⟨[⟨⟨5, [1, 2]⟩, ⟨1, [1, 2]⟩, ⟨3, [1, 2]⟩⟩], [1, 2], 4⟩ : Sketch).registers.map
          (fun r => r.flag.layers.length) ∧
      (⟨[⟨⟨5, [1, 2]⟩, ⟨1, [1]⟩, ⟨3, [1]⟩⟩], [1, 2], 4⟩ : Sketch).registers.map
          (fun r => r.count.layers.length + 1) =
        (⟨[⟨⟨5, [1, 2]⟩, ⟨1, [1, 2]⟩, ⟨3, [1, 2]⟩⟩], [1, 2], 4⟩ : Sketch).registers.map
          (fun r => r.count.layers.length)) :=
  ⟨by decide, by decide,
   operations_layer_progress
     ⟨[⟨⟨5, [1, 2]⟩, ⟨1, [1, 2]⟩, ⟨3, [1, 2]⟩⟩], [1, 2], 4⟩
     ⟨[⟨⟨5, [1, 2]⟩, ⟨1, [1, 2]⟩, ⟨3, [1, 2]⟩⟩], [1, 2], 4⟩
     ⟨[1, 2], 1⟩ ⟨[1, 2], 2⟩
     ⟨[⟨⟨5, [1, 1, 2]⟩, ⟨1, [1, 2]⟩, ⟨3, [1, 2]⟩⟩], [1, 2], 4⟩
     ⟨[⟨⟨5, [1, 2]⟩, ⟨1, [1]⟩, ⟨3, [1]⟩⟩], [1, 2], 4⟩
     (by decide) (by decide)⟩

/-- C10: each serialized wrapper takes one request byte string (modelled
as a list of byte symbols) and yields exactly one outcome, either a
serialized response or a typed error carried in-band as a value; being a
pure function of the request, it cannot modify its input. -/
theorem wrappers_in_band_errors (bs : List Nat) :
    (((∃ out, Crypto.AddNoiseToSketch bs = Except.ok out) ∨
        (∃ e, Crypto.AddNoiseToSketch bs = Except.error e)) ∧
      ∀ out e, Crypto.AddNoiseToSketch bs = Except.ok out →
        Crypto.AddNoiseToSketch bs = Except.error e → False) ∧
    (((∃ out, Crypto.BlindOneLayerRegisterIndex bs = Except.ok out) ∨
        (∃ e, Crypto.BlindOneLayerRegisterIndex bs = Except.error e)) ∧
      ∀ out e, Crypto.BlindOneLayerRegisterIndex bs = Except.ok out →
        Crypto.BlindOneLayerRegisterIndex bs = Except.error e → False) ∧
    (((∃ out, Crypto.BlindLastLayerIndexThenJoinRegisters bs = Except.ok out) ∨
        (∃ e, Crypto.BlindLastLayerIndexThenJoinRegisters bs = Except.error e)) ∧
      ∀ out e, Crypto.BlindLastLayerIndexThenJoinRegisters bs = Except.ok out →
        Crypto.BlindLastLayerIndexThenJoinRegisters bs = Except.error e → False) ∧
    (((∃ out, Crypto.DecryptOneLayerFlagAndCount bs = Except.ok out) ∨
        (∃ e, Crypto.DecryptOneLayerFlagAndCount bs = Except.error e)) ∧
      ∀ out e, Crypto.DecryptOneLayerFlagAndCount bs = Except.ok out →
        Crypto.DecryptOneLayerFlagAndCount bs = Except.error e → False) ∧
    (((∃ out, Crypto.DecryptLastLayerFlagAndCount bs = Except.ok out) ∨
        (∃ e, Crypto.DecryptLastLayerFlagAndCount bs = Except.error e)) ∧
      ∀ out e, Crypto.DecryptLastLayerFlagAndCount bs = Except.ok out →
        Crypto.DecryptLastLayerFlagAndCount bs = Except.error e → False) :=
  ⟨exceptOutcome _, exceptOutcome _, exceptOutcome _, exceptOutcome _,
   exceptOutcome _⟩

open ProtocolEncryptionUtility

/-- One step of merging a register into an optional accumulated group
representative. -/
def mergeStep (w : Nat) (o : Option Register) (r : Register) : Option Register :=
  match o with
  | none => some r
  | some s => some (mergeRegister w s r)

/-- The first register of a list carrying the given index. -/
def lookupIndex (c : Ciphertext) : List Register → Option Register
  | [] => none
  | r :: rest => if r.index = c then some r else lookupIndex c rest

theorem lookupIndex_insertMerge (w : Nat) (c : Ciphertext) (r : Register) :
    ∀ acc : List Register,
      lookupIndex c (insertMerge w r acc) =
        if r.index = c then mergeStep w (lookupIndex c acc) r
        else lookupIndex c acc := by
  intro acc
  induction acc with
  | nil => simp [insertMerge, lookupIndex, mergeStep]
  | cons s rest ih =>
    simp only [insertMerge]
    by_cases hsr : s.index = r.index
    · rw [if_pos hsr]
      by_cases hc : s.index = c
      · have hrc : r.index = c := hsr.symm.trans hc
        simp only [lookupIndex]
        rw [if_pos (show (mergeRegister w s r).index = c from hc), if_pos hrc,
          if_pos hc]
        rfl
      · have hrc : ¬ r.index = c := fun h => hc (hsr.trans h)
        simp only [lookupIndex]
        rw [if_neg (show ¬ (mergeRegister w s r).index = c from hc),
          if_neg hrc, if_neg hc]
    · rw [if_neg hsr]
      by_cases hc : s.index = c
      · have hrc : ¬ r.index = c := fun h => hsr (hc.trans h.symm)
        simp only [lookupIndex]
        rw [if_pos hc, if_neg hrc, if_pos hc]
      · simp only [lookupIndex]
        rw [if_neg hc, if_neg hc, ih]

theorem lookupIndex_joinFold (w : Nat) (c : Ciphertext) :
    ∀ (regs acc : List Register),
      lookupIndex c (regs.foldl (fun a r => insertMerge w r a) acc) =
        (regs.filter (fun r => decide (r.index = c))).foldl (mergeStep w)
          (lookupIndex c acc) := by
  intro regs
  induction regs with
  | nil => intro acc; simp
  | cons r rest ih =>
    intro acc
    rw [List.foldl_cons, ih (insertMerge w r acc),
      lookupIndex_insertMerge w c r acc]
    by_cases hr : r.index = c
    · rw [if_pos hr]
      have hfc : List.filter (fun x => decide (x.index = c)) (r :: rest) =
          r :: List.filter (fun x => decide (x.index = c)) rest := by
        simp [List.filter_cons, hr]
      rw [hfc, List.foldl_cons]
    · rw [if_neg hr]
      have hfc : List.filter (fun x => decide (x.index = c)) (r :: rest) =
          List.filter (fun x => decide (x.index = c)) rest := by
        simp [List.filter_cons, hr]
      rw [hfc]

theorem mergeRegister_zero (w : Nat) (s z : Register)
    (hz1 : z.flag.payload = 0) (hz2 : z.count.payload = 0)
    (hle : s.count.payload ≤ cap w) : mergeRegister w s z = s := by
  unfold mergeRegister
  rw [hz1, hz2]
  simp [Nat.min_eq_left hle]

theorem foldl_mergeStep_zeros (w : Nat) :
    ∀ (g : List Register) (s : Register),
      (∀ z ∈ g, z.flag.payload = 0 ∧ z.count.payload = 0) →
      s.count.payload ≤ cap w →
      g.foldl (mergeStep w) (some s) = some s := by
  intro g
  induction g with
  | nil => intro s _ _; rfl
  | cons z rest ih =>
    intro s hz hle
    have hzz := hz z (List.mem_cons_self z rest)
    simp only [List.foldl_cons, mergeStep]
    rw [mergeRegister_zero w s z hzz.1 hzz.2 hle]
    exact ih s (fun y hy => hz y (List.mem_cons_of_mem z hy)) hle

theorem insertMerge_index_mem (w : Nat) (r : Register) :
    ∀ (acc : List Register) (x : Register), x ∈ insertMerge w r acc →
      x.index ∈ acc.map Register.index ∨ x.index = r.index := by
  intro acc
  induction acc with
  | nil =>
    intro x hx
    simp only [insertMerge, List.mem_singleton] at hx
    exact Or.inr (hx ▸ rfl)
  | cons s rest ih =>
    intro x hx
    simp only [insertMerge] at hx
    by_cases hsr : s.index = r.index
    · rw [if_pos hsr] at hx
      rcases List.mem_cons.1 hx with h | h
      · exact Or.inl (by simp [h, mergeRegister])
      · exact Or.inl (by simp [List.mem_map]; exact Or.inr ⟨x, h, rfl⟩)
    · rw [if_neg hsr] at hx
      rcases List.mem_cons.1 hx with h | h
      · exact Or.inl (by simp [h])
      · rcases ih x h with h' | h'
        · exact Or.inl (by simp only [List.map_cons, List.mem_cons]; exact Or.inr h')
        · exact Or.inr h'

theorem insertMerge_index_nodup (w : Nat) (r : Register) :
    ∀ acc : List Register, (acc.map Register.index).Nodup →
      ((insertMerge w r acc).map Register.index).Nodup := by
  intro acc
  induction acc with
  | nil => intro _; simp [insertMerge]
  | cons s rest ih =>
    intro h
    simp only [List.map_cons, List.nodup_cons] at h
    simp only [insertMerge]
    by_cases hsr : s.index = r.index
    · rw [if_pos hsr]
      simp only [List.map_cons, List.nodup_cons]
      exact ⟨h.1, h.2⟩
    · rw [if_neg hsr]
      simp only [List.map_cons, List.nodup_cons]
      refine ⟨?_, ih h.2⟩
      intro hmem
      rcases List.mem_map.1 hmem with ⟨x, hx, hxi⟩
      rcases insertMerge_index_mem w r rest x hx with h' | h'
      · exact h.1 (hxi ▸ h')
      · exact hsr (hxi ▸ h')

theorem joinFold_index_nodup (w : Nat) :
    ∀ (regs acc : List Register), (acc.map Register.index).Nodup →
      (((regs.foldl (fun a r => insertMerge w r a) acc)).map Register.index).Nodup := by
  intro regs
  induction regs with
  | nil => intro acc h; exact h
  | cons r rest ih =>
    intro acc h
    rw [List.foldl_cons]
    exact ih (insertMerge w r acc) (insertMerge_index_nodup w r acc h)

theorem filter_eq_of_lookup (c : Ciphertext) :
    ∀ (l : List Register) (g : Register), (l.map Register.index).Nodup →
      lookupIndex c l = some g →
      l.filter (fun x => decide (x.index = c)) = [g] := by
  intro l
  induction l with
  | nil => intro g _ hl; exact Option.noConfusion hl
  | cons x rest ih =>
    intro g hnd hl
    simp only [List.map_cons, List.nodup_cons] at hnd
    simp only [lookupIndex] at hl
    by_cases hx : x.index = c
    · rw [if_pos hx] at hl
      have hg : x = g := Option.some.inj hl
      have hrest : List.filter (fun y => decide (y.index = c)) rest = [] := by
        apply List.filter_eq_nil_iff.2
        intro y hy
        simp only [decide_eq_true_eq]
        intro heq
        exact hnd.1 (List.mem_map.2 ⟨y, hy, heq.trans hx.symm⟩)
      rw [List.filter_cons, if_pos (by simp [hx]), hrest, hg]
    · rw [if_neg hx] at hl
      rw [List.filter_cons, if_neg (by simp [hx])]
      exact ih g hnd.2 hl

theorem insertMerge_forall (w : Nat) (Q : Register → Prop)
    (hQ : ∀ s r, Q s → Q r → Q (mergeRegister w s r)) :
    ∀ (acc : List Register) (r : Register), (∀ x ∈ acc, Q x) → Q r →
      ∀ x ∈ insertMerge w r acc, Q x := by
  intro acc
  induction acc with
  | nil =>
    intro r _ hr x hx
    simp only [insertMerge, List.mem_singleton] at hx
    exact hx ▸ hr
  | cons s rest ih =>
    intro r hacc hr x hx
    simp only [insertMerge] at hx
    by_cases hsr : s.index = r.index
    · rw [if_pos hsr] at hx
      rcases List.mem_cons.1 hx with h | h
      · exact h ▸ hQ s r (hacc s (List.mem_cons_self s rest)) hr
      · exact hacc x (List.mem_cons_of_mem s h)
    · rw [if_neg hsr] at hx
      rcases List.mem_cons.1 hx with h | h
      · exact h ▸ hacc s (List.mem_cons_self s rest)
      · exact ih r (fun y hy => hacc y (List.mem_cons_of_mem s hy)) hr x h

theorem joinFold_forall (w : Nat) (Q : Register → Prop)
    (hQ : ∀ s r, Q s → Q r → Q (mergeRegister w s r)) :
    ∀ (regs acc : List Register), (∀ x ∈ acc, Q x) → (∀ x ∈ regs, Q x) →
      ∀ x ∈ regs.foldl (fun a r => insertMerge w r a) acc, Q x := by
  intro regs
  induction regs with
  | nil => intro acc hacc _ x hx; exact hacc x hx
  | cons r rest ih =>
    intro acc hacc hregs x hx
    rw [List.foldl_cons] at hx
    exact ih (insertMerge w r acc)
      (insertMerge_forall w Q hQ acc r hacc (hregs r (List.mem_cons_self r rest)))
      (fun y hy => hregs y (List.mem_cons_of_mem r hy)) x hx

/-- Layers accumulated by successively prepending each key of `ks`. -/
def revApp (ks L : List Nat) : List Nat :=
  ks.foldl (fun acc k => k :: acc) L

/-- The register obtained by blinding once per key of `ks`, in order. -/
def blindChainReg (ks : List Nat) (r : Register) : Register :=
  ks.foldl (fun x k => blindRegister k x) r

/-- The register list obtained by mapping one blinding pass per key. -/
def blindChain : List Nat → List Register → List Register
  | [], regs => regs
  | k :: rest, regs => blindChain rest (regs.map (blindRegister k))

/-- Replace the flag and count layer lists, keeping all payloads and the
index. -/
def setLayers (M : List Nat) (r : Register) : Register :=
  ⟨r.index, ⟨r.flag.payload, M⟩, ⟨r.count.payload, M⟩⟩

theorem blindAll_ok (ctx : List Nat) (w : Nat) :
    ∀ (ks : List Nat) (regs : List Register),
      blindAll ctx ks ⟨regs, ctx, w⟩ = .ok ⟨blindChain ks regs, ctx, w⟩ := by
  intro ks
  induction ks with
  | nil => intro regs; rfl
  | cons k rest ih =>
    intro regs
    simp only [blindAll, BlindOneLayerRegisterIndex, if_pos]
    exact ih (regs.map (blindRegister k))

theorem blindChain_map :
    ∀ (ks : List Nat) (regs : List Register),
      blindChain ks regs = regs.map (blindChainReg ks) := by
  intro ks
  induction ks with
  | nil =>
    intro regs
    simp only [blindChain]
    exact (List.map_id' regs).symm
  | cons k rest ih =>
    intro regs
    simp only [blindChain]
    rw [ih (regs.map (blindRegister k)), List.map_map]
    rfl

theorem blindChainReg_flag (ks : List Nat) :
    ∀ r : Register, (blindChainReg ks r).flag = r.flag := by
  induction ks with
  | nil => intro r; rfl
  | cons k rest ih => intro r; exact ih (blindRegister k r)

theorem blindChainReg_count (ks : List Nat) :
    ∀ r : Register, (blindChainReg ks r).count = r.count := by
  induction ks with
  | nil => intro r; rfl
  | cons k rest ih => intro r; exact ih (blindRegister k r)

theorem blindChainReg_payload (ks : List Nat) :
    ∀ r : Register, (blindChainReg ks r).index.payload = r.index.payload := by
  induction ks with
  | nil => intro r; rfl
  | cons k rest ih => intro r; exact ih (blindRegister k r)

theorem blindChainReg_layers (ks : List Nat) :
    ∀ r : Register,
      (blindChainReg ks r).index.layers = revApp ks r.index.layers := by
  induction ks with
  | nil => intro r; rfl
  | cons k rest ih => intro r; exact ih (blindRegister k r)

theorem mapE_ok_pointwise {α β : Type} (f : α → Except ProtocolError β)
    (g : α → β) :
    ∀ l : List α, (∀ a ∈ l, f a = .ok (g a)) →
      ProtocolEncryptionUtility.mapE f l = .ok (l.map g) := by
  intro l
  induction l with
  | nil => intro _; rfl
  | cons a as ih =>
    intro h
    simp only [ProtocolEncryptionUtility.mapE]
    rw [h a (List.mem_cons_self a as), ih (fun b hb => h b (List.mem_cons_of_mem a hb))]
    rfl

theorem decryptRegisterOne_ok (k : Nat) (L : List Nat) (r : Register)
    (hf : r.flag.layers = k :: L) (hc : r.count.layers = k :: L) :
    decryptRegisterOne k r = .ok (setLayers L r) := by
  unfold decryptRegisterOne decryptLayer
  rw [hf, hc]
  simp [List.erase_cons_head, setLayers]

theorem map_setLayers_id (M : List Nat) :
    ∀ regs : List Register,
      (∀ r ∈ regs, r.flag.layers = M ∧ r.count.layers = M) →
      regs.map (setLayers M) = regs := by
  intro regs
  induction regs with
  | nil => intro _; rfl
  | cons r rest ih =>
    intro h
    have hr := h r (List.mem_cons_self r rest)
    have hf : (⟨r.flag.payload, M⟩ : Ciphertext) = r.flag := by rw [← hr.1]
    have hc : (⟨r.count.payload, M⟩ : Ciphertext) = r.count := by rw [← hr.2]
    have hhead : setLayers M r = r := by
      unfold setLayers
      rw [hf, hc]
    rw [List.map_cons, hhead, ih (fun y hy => h y (List.mem_cons_of_mem r hy))]

theorem decryptAll_ok (ctx : List Nat) (w : Nat) :
    ∀ (ks M : List Nat) (regs : List Register),
      (∀ r ∈ regs, r.flag.layers = ks ++ M ∧ r.count.layers = ks ++ M) →
      decryptAll ctx ks ⟨regs, ctx, w⟩ = .ok ⟨regs.map (setLayers M), ctx, w⟩ := by
  intro ks
  induction ks with
  | nil =>
    intro M regs h
    simp only [decryptAll]
    rw [map_setLayers_id M regs (by simpa using h)]
  | cons k rest ih =>
    intro M regs h
    simp only [decryptAll, DecryptOneLayerFlagAndCount]
    rw [mapE_ok_pointwise (decryptRegisterOne k) (setLayers (rest ++ M)) regs
      (fun r hr => decryptRegisterOne_ok k (rest ++ M) r
        (by rw [(h r hr).1]; rfl) (by rw [(h r hr).2]; rfl))]
    show decryptAll ctx rest
        ⟨regs.map (setLayers (rest ++ M)), ctx, w⟩ =
      Except.ok ⟨regs.map (setLayers M), ctx, w⟩
    rw [ih M (regs.map (setLayers (rest ++ M)))
      (by intro r hr
          rcases List.mem_map.1 hr with ⟨x, _, hx⟩
          exact ⟨by rw [← hx]; rfl, by rw [← hx]; rfl⟩)]
    rw [List.map_map]
    rfl

theorem decryptLast_ok (w share : Nat) (ctxS ctx2 : List Nat) :
    ∀ regs : List Register,
      (∀ r ∈ regs, r.flag.layers = [share] ∧ r.count.layers = [share] ∧
        r.flag.payload ≤ 1 ∧ r.count.payload < 2 ^ w) →
      DecryptLastLayerFlagAndCount ⟨regs, ctxS, w⟩ ⟨ctx2, share⟩ =
        .ok (regs.map (fun r => ⟨r.index, r.flag.payload, r.count.payload⟩)) := by
  intro regs h
  unfold DecryptLastLayerFlagAndCount
  exact mapE_ok_pointwise _ _ regs (fun r hr => by
    have hq := h r hr
    unfold decryptRegisterLast
    rw [if_pos ⟨hq.1, hq.2.1⟩, if_pos ⟨hq.2.2.1, hq.2.2.2⟩])

theorem addNoise_ok (s : Sketch) (p : NoiseParameters) (seed : Nat)
    (h1 : 0 ≤ p.scale) (h2 : 0 ≤ p.bound) (h3 : s.keyContext ≠ []) :
    AddNoiseToSketch s p seed =
      .ok ⟨s.registers ++ noiseRegisters s.keyContext seed (drawnNoiseCount p seed),
           s.keyContext, s.width⟩ := by
  unfold AddNoiseToSketch
  rw [if_neg]
  push_neg
  exact ⟨h1, h2, h3⟩

theorem blindJoin_single (regs : List Register) (ctxS : List Nat)
    (w lastKey : Nat) :
    BlindLastLayerIndexThenJoinRegisters [⟨regs, ctxS, w⟩] ⟨ctxS, lastKey⟩ =
      .ok ⟨joinRegisters w (regs.map (blindRegister lastKey)), ctxS, w⟩ := by
  simp only [BlindLastLayerIndexThenJoinRegisters]
  rw [if_pos trivial,
    if_pos (show ∀ s ∈ [(⟨regs, ctxS, w⟩ : Sketch)], s.width = w ∧ s.keyContext = ctxS by
      intro s hs
      simp only [List.mem_singleton] at hs
      rw [hs]
      exact ⟨rfl, rfl⟩)]
  simp

theorem bindE_ok {α β : Type} {x : Except ProtocolError α} {a : α}
    (h : x = .ok a) (f : α → Except ProtocolError β) :
    ProtocolEncryptionUtility.bindE x f = f a := by
  rw [h]
  rfl

theorem filterOfMap {α β : Type} (f : α → β) (pb : β → Bool) :
    ∀ l : List α,
      (l.map f).filter pb = (l.filter (fun a => pb (f a))).map f := by
  intro l
  induction l with
  | nil => rfl
  | cons a as ih =>
    rw [List.map_cons, List.filter_cons, List.filter_cons]
    by_cases h : pb (f a) = true
    · rw [if_pos h, if_pos h, List.map_cons, ih]
    · rw [if_neg h, if_neg h, ih]

theorem filterCongr {α : Type} (p q : α → Bool) :
    ∀ l : List α, (∀ a ∈ l, p a = q a) → l.filter p = l.filter q := by
  intro l
  induction l with
  | nil => intro _; rfl
  | cons a as ih =>
    intro h
    rw [List.filter_cons, List.filter_cons, h a (List.mem_cons_self a as),
      ih (fun b hb => h b (List.mem_cons_of_mem a hb))]

theorem joinRegisters_index_nodup (w : Nat) (regs : List Register) :
    ((joinRegisters w regs).map Register.index).Nodup := by
  unfold joinRegisters
  exact joinFold_index_nodup w regs [] (by simp)

theorem joinRegisters_forall (w : Nat) (Q : Register → Prop)
    (hQ : ∀ s r, Q s → Q r → Q (mergeRegister w s r))
    (regs : List Register) (h : ∀ x ∈ regs, Q x) :
    ∀ x ∈ joinRegisters w regs, Q x := by
  unfold joinRegisters
  exact joinFold_forall w Q hQ regs []
    (fun x hx => absurd hx (List.not_mem_nil x)) h

theorem lookupIndex_joinRegisters (w : Nat) (c : Ciphertext)
    (regs : List Register) :
    lookupIndex c (joinRegisters w regs) =
      (regs.filter (fun r => decide (r.index = c))).foldl (mergeStep w) none := by
  unfold joinRegisters
  rw [lookupIndex_joinFold]
  rfl

theorem blindFull_index (lastKey : Nat) (blindKeys : List Nat) (y : Register) :
    (blindRegister lastKey (blindChainReg blindKeys y)).index =
      ⟨y.index.payload, lastKey :: revApp blindKeys y.index.layers⟩ := by
  show blindLayer lastKey (blindChainReg blindKeys y).index = _
  unfold blindLayer
  rw [blindChainReg_payload, blindChainReg_layers]

theorem blindFull_flag (lastKey : Nat) (blindKeys : List Nat) (y : Register) :
    (blindRegister lastKey (blindChainReg blindKeys y)).flag = y.flag := by
  show (blindChainReg blindKeys y).flag = y.flag
  exact blindChainReg_flag blindKeys y

theorem blindFull_count (lastKey : Nat) (blindKeys : List Nat) (y : Register) :
    (blindRegister lastKey (blindChainReg blindKeys y)).count = y.count := by
  show (blindChainReg blindKeys y).count = y.count
  exact blindChainReg_count blindKeys y

theorem addNoise_ok_fields (regs : List Register) (ctxS : List Nat)
    (w' : Nat) (p : NoiseParameters) (seed : Nat)
    (h1 : 0 ≤ p.scale) (h2 : 0 ≤ p.bound) (h3 : ctxS ≠ []) :
    AddNoiseToSketch ⟨regs, ctxS, w'⟩ p seed =
      .ok ⟨regs ++ noiseRegisters ctxS seed (drawnNoiseCount p seed), ctxS, w'⟩ :=
  addNoise_ok ⟨regs, ctxS, w'⟩ p seed h1 h2 h3

theorem registerExt (a b : Register) (h1 : a.index = b.index)
    (h2 : a.flag = b.flag) (h3 : a.count = b.count) : a = b := by
  cases a
  cases b
  simp_all

/-- C1: the full pipeline round-trip on an encrypted plaintext register
set (noise, all-but-last blinding, final blind-and-join, layerwise
decryption, final decryption) reproduces the original (flag, count)
values exactly for every register whose pre-blinding index had no
collision: the output holds exactly one record for that index, carrying
the original flag and count. -/
theorem roundtrip_preserves_uncollided_register
    (blindKeys : List Nat) (lastKey w : Nat) (plain : List PlainRegister)
    (p : NoiseParameters) (seed : Nat)
    (hscale : 0 ≤ p.scale) (hbound : 0 ≤ p.bound)
    (hflag : ∀ q ∈ plain, q.flag ≤ 1) (hcount : ∀ q ∈ plain, q.count < 2 ^ w)
    (r₀ : PlainRegister)
    (hfilter : plain.filter (fun q => decide (q.index = r₀.index)) = [r₀]) :
    ∃ out, runPipeline blindKeys lastKey w plain p seed = .ok out ∧
      (out.filter (fun rec => decide (rec.index.payload = r₀.index))).map
          (fun rec => (rec.flag, rec.count)) = [(r₀.flag, r₀.count)] := by
  have hctxne : blindKeys ++ [lastKey] ≠ [] := by simp
  have hr₀mem : r₀ ∈ plain := by
    have h : r₀ ∈ plain.filter (fun q => decide (q.index = r₀.index)) := by
      rw [hfilter]
      exact List.mem_singleton_self r₀
    exact List.mem_of_mem_filter h
  have hcaplt : cap w < 2 ^ w := by
    unfold cap
    exact Nat.sub_lt (pow_pos (by norm_num) w) (by norm_num)
  have hQmerge : ∀ s r : Register,
      (s.index.layers = lastKey :: revApp blindKeys (blindKeys ++ [lastKey]) ∧
        s.flag.layers = blindKeys ++ [lastKey] ∧
        s.count.layers = blindKeys ++ [lastKey] ∧
        s.flag.payload ≤ 1 ∧ s.count.payload < 2 ^ w) →
      (r.index.layers = lastKey :: revApp blindKeys (blindKeys ++ [lastKey]) ∧
        r.flag.layers = blindKeys ++ [lastKey] ∧
        r.count.layers = blindKeys ++ [lastKey] ∧
        r.flag.payload ≤ 1 ∧ r.count.payload < 2 ^ w) →
      ((mergeRegister w s r).index.layers =
          lastKey :: revApp blindKeys (blindKeys ++ [lastKey]) ∧
        (mergeRegister w s r).flag.layers = blindKeys ++ [lastKey] ∧
        (mergeRegister w s r).count.layers = blindKeys ++ [lastKey] ∧
        (mergeRegister w s r).flag.payload ≤ 1 ∧
        (mergeRegister w s r).count.payload < 2 ^ w) := by
    intro s r hs hr
    exact ⟨hs.1, hs.2.1, hs.2.2.1, max_le hs.2.2.2.1 hr.2.2.2.1,
      lt_of_le_of_lt (Nat.min_le_right _ _) hcaplt⟩
  have hQpre : ∀ x ∈ ((plain.map (encryptRegister (blindKeys ++ [lastKey])) ++
        noiseRegisters (blindKeys ++ [lastKey]) seed (drawnNoiseCount p seed)).map
          (blindChainReg blindKeys)).map (blindRegister lastKey),
      (x.index.layers = lastKey :: revApp blindKeys (blindKeys ++ [lastKey]) ∧
        x.flag.layers = blindKeys ++ [lastKey] ∧
        x.count.layers = blindKeys ++ [lastKey] ∧
        x.flag.payload ≤ 1 ∧ x.count.payload < 2 ^ w) := by
    intro x hx
    rcases List.mem_map.1 hx with ⟨y1, hy1, hxy⟩
    rcases List.mem_map.1 hy1 with ⟨y, hy, hy1y⟩
    subst hxy
    subst hy1y
    rcases List.mem_append.1 hy with hyE | hyN
    · rcases List.mem_map.1 hyE with ⟨q, hq, hqy⟩
      subst hqy
      refine ⟨?_, ?_, ?_, ?_, ?_⟩
      · rw [blindFull_index]
        rfl
      · rw [blindFull_flag]
        rfl
      · rw [blindFull_count]
        rfl
      · rw [blindFull_flag]
        exact hflag q hq
      · rw [blindFull_count]
        exact hcount q hq
    · unfold noiseRegisters at hyN
      rcases List.mem_map.1 hyN with ⟨i, _, hiy⟩
      subst hiy
      refine ⟨?_, ?_, ?_, ?_, ?_⟩
      · rw [blindFull_index]
        rfl
      · rw [blindFull_flag]
        rfl
      · rw [blindFull_count]
        rfl
      · rw [blindFull_flag]
        exact Nat.zero_le 1
      · rw [blindFull_count]
        exact pow_pos (by norm_num) w
  have hQjoined := joinRegisters_forall w
    (fun x => x.index.layers = lastKey :: revApp blindKeys (blindKeys ++ [lastKey]) ∧
      x.flag.layers = blindKeys ++ [lastKey] ∧
      x.count.layers = blindKeys ++ [lastKey] ∧
      x.flag.payload ≤ 1 ∧ x.count.payload < 2 ^ w)
    hQmerge
    (((plain.map (encryptRegister (blindKeys ++ [lastKey])) ++
        noiseRegisters (blindKeys ++ [lastKey]) seed (drawnNoiseCount p seed)).map
          (blindChainReg blindKeys)).map (blindRegister lastKey))
    hQpre
  have hnodup := joinRegisters_index_nodup w
    (((plain.map (encryptRegister (blindKeys ++ [lastKey])) ++
        noiseRegisters (blindKeys ++ [lastKey]) seed (drawnNoiseCount p seed)).map
          (blindChainReg blindKeys)).map (blindRegister lastKey))
  have hprep : prepSketch (blindKeys ++ [lastKey]) blindKeys w p seed plain =
      .ok ⟨(plain.map (encryptRegister (blindKeys ++ [lastKey])) ++
            noiseRegisters (blindKeys ++ [lastKey]) seed (drawnNoiseCount p seed)).map
            (blindChainReg blindKeys), blindKeys ++ [lastKey], w⟩ := by
    unfold prepSketch
    rw [show encryptSketch (blindKeys ++ [lastKey]) w plain =
        (⟨plain.map (encryptRegister (blindKeys ++ [lastKey])),
          blindKeys ++ [lastKey], w⟩ : Sketch) from rfl,
      bindE_ok (addNoise_ok_fields
        (plain.map (encryptRegister (blindKeys ++ [lastKey])))
        (blindKeys ++ [lastKey]) w p seed hscale hbound hctxne)]
    show blindAll (blindKeys ++ [lastKey]) blindKeys
        ⟨plain.map (encryptRegister (blindKeys ++ [lastKey])) ++
          noiseRegisters (blindKeys ++ [lastKey]) seed (drawnNoiseCount p seed),
         blindKeys ++ [lastKey], w⟩ = _
    rw [blindAll_ok, blindChain_map]
  have hmap : ProtocolEncryptionUtility.mapE
      (prepSketch (blindKeys ++ [lastKey]) blindKeys w p seed) [plain] =
      .ok [⟨(plain.map (encryptRegister (blindKeys ++ [lastKey])) ++
            noiseRegisters (blindKeys ++ [lastKey]) seed (drawnNoiseCount p seed)).map
            (blindChainReg blindKeys), blindKeys ++ [lastKey], w⟩] := by
    have h := mapE_ok_pointwise
      (prepSketch (blindKeys ++ [lastKey]) blindKeys w p seed)
      (fun _ => ⟨(plain.map (encryptRegister (blindKeys ++ [lastKey])) ++
            noiseRegisters (blindKeys ++ [lastKey]) seed (drawnNoiseCount p seed)).map
            (blindChainReg blindKeys), blindKeys ++ [lastKey], w⟩) [plain]
      (by
        intro a ha
        simp only [List.mem_singleton] at ha
        rw [ha]
        exact hprep)
    simpa using h
  have hdec := decryptAll_ok (blindKeys ++ [lastKey]) w blindKeys [lastKey]
    (joinRegisters w
      (((plain.map (encryptRegister (blindKeys ++ [lastKey])) ++
          noiseRegisters (blindKeys ++ [lastKey]) seed (drawnNoiseCount p seed)).map
            (blindChainReg blindKeys)).map (blindRegister lastKey)))
    (fun r hr => ⟨(hQjoined r hr).2.1, (hQjoined r hr).2.2.1⟩)
  have hlast := decryptLast_ok w lastKey (blindKeys ++ [lastKey])
    (blindKeys ++ [lastKey])
    ((joinRegisters w
      (((plain.map (encryptRegister (blindKeys ++ [lastKey])) ++
          noiseRegisters (blindKeys ++ [lastKey]) seed (drawnNoiseCount p seed)).map
            (blindChainReg blindKeys)).map (blindRegister lastKey))).map
      (setLayers [lastKey]))
    (by
      intro r' hr'
      rcases List.mem_map.1 hr' with ⟨r, hr, hrr'⟩
      subst hrr'
      exact ⟨rfl, rfl, (hQjoined r hr).2.2.2.1, (hQjoined r hr).2.2.2.2⟩)
  refine ⟨(joinRegisters w
      (((plain.map (encryptRegister (blindKeys ++ [lastKey])) ++
          noiseRegisters (blindKeys ++ [lastKey]) seed (drawnNoiseCount p seed)).map
            (blindChainReg blindKeys)).map (blindRegister lastKey))).map
      (fun r => ⟨r.index, r.flag.payload, r.count.payload⟩), ?_, ?_⟩
  · unfold runPipeline runPipelineMulti
    simp only [hmap, ProtocolEncryptionUtility.bindE, blindJoin_single, hdec,
      hlast]
    rw [List.map_map]
    rfl
  · have hg₀ : blindRegister lastKey (blindChainReg blindKeys
        (encryptRegister (blindKeys ++ [lastKey]) r₀)) =
        ⟨⟨r₀.index, lastKey :: revApp blindKeys (blindKeys ++ [lastKey])⟩,
         ⟨r₀.flag, blindKeys ++ [lastKey]⟩,
         ⟨r₀.count, blindKeys ++ [lastKey]⟩⟩ := by
      refine registerExt _ _ ?_ ?_ ?_
      · rw [blindFull_index]
        rfl
      · rw [blindFull_flag]
        rfl
      · rw [blindFull_count]
        rfl
    have hlook : lookupIndex
        ⟨r₀.index, lastKey :: revApp blindKeys (blindKeys ++ [lastKey])⟩
        (joinRegisters w
          (((plain.map (encryptRegister (blindKeys ++ [lastKey])) ++
              noiseRegisters (blindKeys ++ [lastKey]) seed
                (drawnNoiseCount p seed)).map
                (blindChainReg blindKeys)).map (blindRegister lastKey))) =
        some (blindRegister lastKey (blindChainReg blindKeys
          (encryptRegister (blindKeys ++ [lastKey]) r₀))) := by
      rw [lookupIndex_joinRegisters, List.map_append, List.map_append,
        List.filter_append, List.foldl_append, List.map_map, List.map_map,
        List.map_map, filterOfMap]
      rw [filterCongr _ (fun q => decide (q.index = r₀.index)) plain
        (by
          intro a _
          simp only [Function.comp_apply]
          rw [decide_eq_decide, blindFull_index]
          constructor
          · intro h
            exact congrArg Ciphertext.payload h
          · intro h
            show (⟨a.index,
              lastKey :: revApp blindKeys (blindKeys ++ [lastKey])⟩ :
                Ciphertext) = _
            rw [h]), hfilter]
      refine foldl_mergeStep_zeros w _ _ ?_ ?_
      · intro z hz
        have hz' := List.mem_of_mem_filter hz
        rcases List.mem_map.1 hz' with ⟨y, hy, hyz⟩
        subst hyz
        unfold noiseRegisters at hy
        rcases List.mem_map.1 hy with ⟨i, _, hiy⟩
        subst hiy
        constructor
        · rw [show ((blindRegister lastKey ∘ blindChainReg blindKeys)
            (noiseRegister (blindKeys ++ [lastKey]) seed i)).flag =
              (noiseRegister (blindKeys ++ [lastKey]) seed i).flag from
            blindFull_flag lastKey blindKeys _]
          rfl
        · rw [show ((blindRegister lastKey ∘ blindChainReg blindKeys)
            (noiseRegister (blindKeys ++ [lastKey]) seed i)).count =
              (noiseRegister (blindKeys ++ [lastKey]) seed i).count from
            blindFull_count lastKey blindKeys _]
          rfl
      · simp only [Function.comp_apply]
        rw [show (blindRegister lastKey (blindChainReg blindKeys
            (encryptRegister (blindKeys ++ [lastKey]) r₀))).count =
              (encryptRegister (blindKeys ++ [lastKey]) r₀).count from
          blindFull_count lastKey blindKeys _]
        exact Nat.le_pred_of_lt (hcount r₀ hr₀mem)
    have hfj := filter_eq_of_lookup
      ⟨r₀.index, lastKey :: revApp blindKeys (blindKeys ++ [lastKey])⟩
      (joinRegisters w
        (((plain.map (encryptRegister (blindKeys ++ [lastKey])) ++
            noiseRegisters (blindKeys ++ [lastKey]) seed
              (drawnNoiseCount p seed)).map
              (blindChainReg blindKeys)).map (blindRegister lastKey)))
      _ hnodup hlook
    rw [filterOfMap]
    rw [filterCongr _
      (fun x => decide (x.index =
        (⟨r₀.index, lastKey :: revApp blindKeys (blindKeys ++ [lastKey])⟩ :
          Ciphertext))) _
      (by
        intro a ha
        have hL : a.index =
            ⟨a.index.payload,
             lastKey :: revApp blindKeys (blindKeys ++ [lastKey])⟩ := by
          rw [← (hQjoined a ha).1]
        show decide (a.index.payload = r₀.index) = _
        rw [decide_eq_decide]
        constructor
        · intro h
          rw [hL, h]
        · intro h
          exact congrArg Ciphertext.payload h)]
    rw [hfj, hg₀]
    rfl

/-- Witness for C1 at a concrete one-party, one-register instance. -/
theorem roundtrip_preserves_uncollided_register_witness :
    ((0 : Int) ≤ (⟨0, 0⟩ : NoiseParameters).scale ∧
      (0 : Int) ≤ (⟨0, 0⟩ : NoiseParameters).bound ∧
      (∀ q ∈ [(⟨1, 1, 2⟩ : PlainRegister)], q.flag ≤ 1) ∧
      (∀ q ∈ [(⟨1, 1, 2⟩ : PlainRegister)], q.count < 2 ^ 2) ∧
      [(⟨1, 1, 2⟩ : PlainRegister)].filter
          (fun q => decide (q.index = (⟨1, 1, 2⟩ : PlainRegister).index)) =
        [⟨1, 1, 2⟩]) ∧
    ∃ out, runPipeline [3] 4 2 [⟨1, 1, 2⟩] ⟨0, 0⟩ 0 = .ok out ∧
      (out.filter (fun rec =>
          decide (rec.index.payload = (⟨1, 1, 2⟩ : PlainRegister).index))).map
          (fun rec => (rec.flag, rec.count)) =
        [((⟨1, 1, 2⟩ : PlainRegister).flag, (⟨1, 1, 2⟩ : PlainRegister).count)] :=
  ⟨⟨by decide, by decide, by decide, by decide, by decide⟩,
   roundtrip_preserves_uncollided_register [3] 4 2 [⟨1, 1, 2⟩] ⟨0, 0⟩ 0
     (by decide) (by decide) (by decide) (by decide) ⟨1, 1, 2⟩ (by decide)⟩
